import Mathlib

/-!
Verification of the MathWorkers.js coordination core against its design
specification.  The JavaScript source (a single concatenated library file) is
shallowly embedded: numbers are idealized as rationals, `Float64Array` buffers
as lists, fallible calls as `Except`, and the Coordinator's message handlers as
explicit state-passing functions folded over the list of arriving worker
reports.
-/

namespace MW

/-! ## Load balancing (`MW.util.loadBalance`)

The source computes, for worker `id` out of `nWorkers`, a half-open range of a
total extent `n`:

    var div = (n / global.nWorkers)|0;
    var rem = n % global.nWorkers;
    if (id < rem) { ifrom = id * (div + 1); ito = ifrom + div + 1; }
    else          { ifrom = id * div + rem; ito = ifrom + div; }

`(n / nWorkers)|0` is floor division of nonnegative integers, hence `Nat` `/`.
-/

structure LBRange where
  ifrom : ℕ
  ito : ℕ
  deriving Repr, DecidableEq

def loadBalance (n nWorkers id : ℕ) : LBRange :=
  let div := n / nWorkers
  let rem := n % nWorkers
  if id < rem then
    { ifrom := id * (div + 1), ito := id * (div + 1) + div + 1 }
  else
    { ifrom := id * div + rem, ito := id * div + rem + div }

/-- Length of the range assigned to a worker. -/
def lbLen (n nWorkers id : ℕ) : ℕ :=
  (loadBalance n nWorkers id).ito - (loadBalance n nWorkers id).ifrom

lemma loadBalance_ifrom (n k id : ℕ) :
    (loadBalance n k id).ifrom = id * (n / k) + min id (n % k) := by
  unfold loadBalance
  by_cases h : id < n % k
  · simp only [h, if_pos]
    have : min id (n % k) = id := by omega
    rw [this]
    ring
  · simp only [h, if_neg, if_false]
    have : min id (n % k) = n % k := by omega
    rw [this]

lemma loadBalance_ito (n k id : ℕ) :
    (loadBalance n k id).ito =
      (loadBalance n k id).ifrom + n / k + (if id < n % k then 1 else 0) := by
  unfold loadBalance
  by_cases h : id < n % k <;> simp [h]

lemma loadBalance_ito_eq_ifrom_succ (n k id : ℕ) :
    (loadBalance n k id).ito = (loadBalance n k (id + 1)).ifrom := by
  rw [loadBalance_ito, loadBalance_ifrom, loadBalance_ifrom]
  by_cases h : id < n % k
  · have h1 : min id (n % k) = id := by omega
    have h2 : min (id + 1) (n % k) = id + 1 := by omega
    rw [h1, h2, if_pos h]
    ring
  · have h1 : min id (n % k) = n % k := by omega
    have h2 : min (id + 1) (n % k) = n % k := by omega
    rw [h1, h2, if_neg h]
    ring

lemma loadBalance_ifrom_le_ito (n k id : ℕ) :
    (loadBalance n k id).ifrom ≤ (loadBalance n k id).ito := by
  rw [loadBalance_ito]
  exact le_trans (Nat.le_add_right _ _) (Nat.le_add_right _ _)

lemma loadBalance_ifrom_mono (n k : ℕ) {i j : ℕ} (h : i ≤ j) :
    (loadBalance n k i).ifrom ≤ (loadBalance n k j).ifrom := by
  induction j with
  | zero =>
    have hi : i = 0 := by omega
    subst hi; exact le_refl _
  | succ j ih =>
    rcases Nat.lt_succ_iff_lt_or_eq.mp (Nat.lt_succ_of_le h) with h' | h'
    · calc (loadBalance n k i).ifrom ≤ (loadBalance n k j).ifrom := ih (by omega)
        _ ≤ (loadBalance n k j).ito := loadBalance_ifrom_le_ito n k j
        _ = (loadBalance n k (j + 1)).ifrom := loadBalance_ito_eq_ifrom_succ n k j
    · subst h'; exact le_refl _

lemma loadBalance_ifrom_zero (n k : ℕ) : (loadBalance n k 0).ifrom = 0 := by
  rw [loadBalance_ifrom]; simp

lemma loadBalance_ifrom_top (n k : ℕ) (hk : 1 ≤ k) :
    (loadBalance n k k).ifrom = n := by
  rw [loadBalance_ifrom]
  have h1 : min k (n % k) = n % k := by
    have := Nat.mod_lt n hk
    omega
  rw [h1]
  exact Nat.div_add_mod n k

lemma loadBalance_disjoint (n k : ℕ) {i j : ℕ} (h : i < j) :
    (loadBalance n k i).ito ≤ (loadBalance n k j).ifrom := by
  rw [loadBalance_ito_eq_ifrom_succ]
  exact loadBalance_ifrom_mono n k h

lemma loadBalance_cover_aux (n k : ℕ) :
    ∀ j m, m < (loadBalance n k j).ifrom →
      ∃ id, id < j ∧ (loadBalance n k id).ifrom ≤ m ∧ m < (loadBalance n k id).ito := by
  intro j
  induction j with
  | zero => intro m hm; rw [loadBalance_ifrom_zero] at hm; omega
  | succ j ih =>
    intro m hm
    rw [← loadBalance_ito_eq_ifrom_succ] at hm
    by_cases h : m < (loadBalance n k j).ifrom
    · obtain ⟨id, hid, h1, h2⟩ := ih m h
      exact ⟨id, by omega, h1, h2⟩
    · exact ⟨j, by omega, by omega, hm⟩

/-- C1: for every `n ≥ 1`, `workerCount ≥ 1` and worker id, `loadBalance`
returns the half-open range with base size `div = n / workerCount` and
remainder `rem = n % workerCount`: workers with `id < rem` get `div + 1`
elements, the others `div`; the ranges are contiguous in worker-id order
(each range's `ito` is the next range's `ifrom`), start at `0`, end at `n`,
are pairwise disjoint, their union is exactly `[0, n)`, and no two ranges'
lengths differ by more than 1. -/
theorem loadBalance_partition_correct (n k : ℕ) (hn : 1 ≤ n) (hk : 1 ≤ k) :
    (∀ id, lbLen n k id = if id < n % k then n / k + 1 else n / k) ∧
    (∀ id, (loadBalance n k id).ito = (loadBalance n k (id + 1)).ifrom) ∧
    (loadBalance n k 0).ifrom = 0 ∧
    (loadBalance n k (k - 1)).ito = n ∧
    (∀ i j, i < j → (loadBalance n k i).ito ≤ (loadBalance n k j).ifrom) ∧
    (∀ m, (∃ id, id < k ∧ (loadBalance n k id).ifrom ≤ m ∧
      m < (loadBalance n k id).ito) ↔ m < n) ∧
    (∀ i j, lbLen n k i ≤ lbLen n k j + 1) := by
  have hlen : ∀ id, lbLen n k id = if id < n % k then n / k + 1 else n / k := by
    intro id
    rw [lbLen, loadBalance_ito]
    generalize (loadBalance n k id).ifrom = a
    generalize n / k = b
    split <;> omega
  refine ⟨hlen, fun id => loadBalance_ito_eq_ifrom_succ n k id,
    loadBalance_ifrom_zero n k, ?_, fun i j h => loadBalance_disjoint n k h, ?_, ?_⟩
  · have h1 : k - 1 + 1 = k := by omega
    rw [loadBalance_ito_eq_ifrom_succ, h1, loadBalance_ifrom_top n k hk]
  · intro m
    constructor
    · rintro ⟨id, hid, _, h2⟩
      have h3 : (loadBalance n k id).ito ≤ (loadBalance n k k).ifrom := by
        rw [loadBalance_ito_eq_ifrom_succ]
        exact loadBalance_ifrom_mono n k hid
      rw [loadBalance_ifrom_top n k hk] at h3
      omega
    · intro hm
      exact loadBalance_cover_aux n k k m
        (by rw [loadBalance_ifrom_top n k hk]; exact hm)
  · intro i j
    have h1 := hlen i
    have h2 := hlen j
    split at h1 <;> split at h2 <;> omega

/-- Witness for C1: the Scenario B instance `n = 7`, `workerCount = 3` yields
the partitions `[0,3) [3,5) [5,7)` whose union is exactly `[0, 7)`. -/
theorem loadBalance_partition_correct_witness :
    (∀ m, (∃ id, id < 3 ∧ (loadBalance 7 3 id).ifrom ≤ m ∧
      m < (loadBalance 7 3 id).ito) ↔ m < 7) ∧
    (loadBalance 7 3 0).ifrom = 0 ∧ (loadBalance 7 3 0).ito = 3 ∧
    (loadBalance 7 3 1).ifrom = 3 ∧ (loadBalance 7 3 1).ito = 5 ∧
    (loadBalance 7 3 2).ifrom = 5 ∧ (loadBalance 7 3 2).ito = 7 :=
  ⟨(loadBalance_partition_correct 7 3 (by decide) (by decide)).2.2.2.2.2.1,
    by decide, by decide, by decide, by decide, by decide, by decide⟩

/-! ## Vector gather (`handleGatherVector` and `MW.MathWorker.gatherVector`)

Worker side, `MW.MathWorker.gatherVector(vec, totalLength, offset, tag,
rebroadcast)` posts `{handle: "_gatherVector", len: totalLength, offset:
offset, vectorPart: vec.buffer}`.  Coordinator side, `handleGatherVector`:

    if (nWorkersReported == 0) { objectBuffer = new MW.Vector(data.len); }
    var tmpArray = new Float64Array(data.vectorPart);
    var offset = data.offset;
    for (var i = 0; i < tmpArray.length; ++i)
        objectBuffer.array[offset + i] = tmpArray[i];
    nWorkersReported += 1;
    if (nWorkersReported == global.nWorkers) { ...emit/rebroadcast...; nWorkersReported = 0; }

The tag/rebroadcast dispatch does not touch the accumulator, so the state kept
here is the report counter and the accumulator buffer (a fresh `Float64Array`
is zero-initialized, hence `List.replicate len 0`).
-/

structure GatherMsg where
  len : ℕ
  offset : ℕ
  vectorPart : List ℚ
  deriving Repr, DecidableEq

/-- The placement loop of `handleGatherVector`. -/
def writeSlice : List ℚ → ℕ → List ℚ → List ℚ
  | buf, _, [] => buf
  | buf, off, x :: xs => writeSlice (buf.set off x) (off + 1) xs

structure GatherVectorState where
  nWorkersReported : ℕ
  objectBuffer : List ℚ
  deriving Repr, DecidableEq

def handleGatherVector (nWorkers : ℕ) (st : GatherVectorState) (msg : GatherMsg) :
    GatherVectorState :=
  let buf0 := if st.nWorkersReported = 0 then List.replicate msg.len 0 else st.objectBuffer
  let buf := writeSlice buf0 msg.offset msg.vectorPart
  if st.nWorkersReported + 1 = nWorkers then
    { nWorkersReported := 0, objectBuffer := buf }
  else
    { nWorkersReported := st.nWorkersReported + 1, objectBuffer := buf }

/-- One gather round: the Coordinator handler folded over the arriving
reports, starting from the idle state (counter `0`). -/
def processGatherVector (nWorkers : ℕ) (msgs : List GatherMsg) : GatherVectorState :=
  msgs.foldl (handleGatherVector nWorkers) { nWorkersReported := 0, objectBuffer := [] }

/-- The message worker `id` ships for the identity transform of its partition:
the slice `v[ifrom..ito)` together with `offset = ifrom` and the total
length. -/
def workerGatherMsg (v : List ℚ) (k id : ℕ) : GatherMsg :=
  let lb := loadBalance v.length k id
  { len := v.length, offset := lb.ifrom,
    vectorPart := (v.drop lb.ifrom).take (lb.ito - lb.ifrom) }

/-- The pure sequence of placement writes, with counter logic stripped. -/
def applyWrites (buf : List ℚ) (msgs : List GatherMsg) : List ℚ :=
  msgs.foldl (fun b m => writeSlice b m.offset m.vectorPart) buf

/-- `msg` covers buffer index `i`. -/
def GatherMsg.covers (m : GatherMsg) (i : ℕ) : Prop :=
  m.offset ≤ i ∧ i < m.offset + m.vectorPart.length

instance (m : GatherMsg) (i : ℕ) : Decidable (m.covers i) := by
  unfold GatherMsg.covers; infer_instance

/-- `msg` carries exactly the `v`-values of the region it covers. -/
def GatherMsg.agrees (m : GatherMsg) (v : List ℚ) : Prop :=
  m.offset + m.vectorPart.length ≤ v.length ∧
    ∀ j, j < m.vectorPart.length → m.vectorPart[j]? = v[m.offset + j]?

lemma writeSlice_length (part : List ℚ) : ∀ (buf : List ℚ) (off : ℕ),
    (writeSlice buf off part).length = buf.length := by
  induction part with
  | nil => intro buf off; rfl
  | cons x xs ih =>
    intro buf off
    rw [writeSlice, ih, List.length_set]

lemma writeSlice_getElem? (part : List ℚ) : ∀ (buf : List ℚ) (off i : ℕ),
    i < buf.length →
    (writeSlice buf off part)[i]? =
      if off ≤ i ∧ i < off + part.length then part[i - off]? else buf[i]? := by
  induction part with
  | nil =>
    intro buf off i _
    rw [writeSlice]
    simp only [List.length_nil]
    rw [if_neg (by omega)]
  | cons x xs ih =>
    intro buf off i hi
    rw [writeSlice, ih _ _ _ (by rw [List.length_set]; exact hi)]
    by_cases h1 : off + 1 ≤ i ∧ i < off + 1 + xs.length
    · rw [if_pos h1, if_pos (by simp; omega)]
      have h2 : i - off = (i - (off + 1)) + 1 := by omega
      rw [h2, List.getElem?_cons_succ]
    · rw [if_neg h1]
      by_cases h2 : i = off
      · subst h2
        rw [List.getElem?_set_self hi, if_pos (by simp)]
        simp
      · rw [List.getElem?_set_ne (by omega), if_neg (by simp; omega)]

lemma applyWrites_cons (buf : List ℚ) (m : GatherMsg) (ms : List GatherMsg) :
    applyWrites buf (m :: ms) = applyWrites (writeSlice buf m.offset m.vectorPart) ms := rfl

lemma applyWrites_length (msgs : List GatherMsg) : ∀ (buf : List ℚ),
    (applyWrites buf msgs).length = buf.length := by
  induction msgs with
  | nil => intro buf; rfl
  | cons m ms ih =>
    intro buf
    rw [applyWrites_cons, ih, writeSlice_length]

lemma applyWrites_getElem?_of_not_covered (msgs : List GatherMsg) :
    ∀ (buf : List ℚ) (i : ℕ), i < buf.length → (∀ m ∈ msgs, ¬m.covers i) →
    (applyWrites buf msgs)[i]? = buf[i]? := by
  induction msgs with
  | nil => intro buf i _ _; rfl
  | cons m ms ih =>
    intro buf i hi hnc
    rw [applyWrites_cons]
    rw [ih _ _ (by rw [writeSlice_length]; exact hi)
      (fun m' hm' => hnc m' (List.mem_cons_of_mem _ hm'))]
    have hnm : ¬(m.offset ≤ i ∧ i < m.offset + m.vectorPart.length) :=
      hnc m (List.mem_cons_self m ms)
    rw [writeSlice_getElem? _ _ _ _ hi, if_neg hnm]

lemma applyWrites_getElem?_of_covered (v : List ℚ) (msgs : List GatherMsg) :
    ∀ (buf : List ℚ) (i : ℕ), buf.length = v.length →
    (∀ m ∈ msgs, m.agrees v) → (∃ m ∈ msgs, m.covers i) → i < v.length →
    (applyWrites buf msgs)[i]? = v[i]? := by
  induction msgs with
  | nil => intro buf i _ _ hc _; simp at hc
  | cons m ms ih =>
    intro buf i hbuf hag hc hiv
    rw [applyWrites_cons]
    by_cases h1 : ∃ m' ∈ ms, m'.covers i
    · exact ih _ _ (by rw [writeSlice_length]; exact hbuf)
        (fun m' hm' => hag m' (List.mem_cons_of_mem _ hm')) h1 hiv
    · have hm : m.covers i := by
        obtain ⟨m', hm', hcov⟩ := hc
        rcases List.mem_cons.mp hm' with h | h
        · subst h; exact hcov
        · exact absurd ⟨m', h, hcov⟩ h1
      rw [applyWrites_getElem?_of_not_covered ms _ i
        (by rw [writeSlice_length, hbuf]; exact hiv)
        (fun m' hm' hcov => h1 ⟨m', hm', hcov⟩)]
      have hm' : m.offset ≤ i ∧ i < m.offset + m.vectorPart.length := hm
      rw [writeSlice_getElem? _ _ _ _ (by rw [hbuf]; exact hiv), if_pos hm']
      obtain ⟨hagm1, hagm2⟩ := hag m (List.mem_cons_self m ms)
      have h3 : i - m.offset < m.vectorPart.length := by
        obtain ⟨h4, h5⟩ := hm; omega
      rw [hagm2 _ h3]
      congr 1
      obtain ⟨h4, _⟩ := hm
      omega

/-- Counter discipline of the fold: starting strictly inside a round (counter
nonzero) and with at most `k` total reports, no reallocation happens and the
buffer is just the accumulated writes. -/
lemma processGather_go (k : ℕ) (msgs : List GatherMsg) :
    ∀ (st : GatherVectorState), 1 ≤ st.nWorkersReported →
    st.nWorkersReported + msgs.length ≤ k →
    (msgs.foldl (handleGatherVector k) st).objectBuffer =
      applyWrites st.objectBuffer msgs := by
  induction msgs with
  | nil => intro st _ _; rfl
  | cons m ms ih =>
    intro st h1 h2
    rw [List.foldl_cons, applyWrites_cons]
    rw [List.length_cons] at h2
    have hstep : handleGatherVector k st m =
        if st.nWorkersReported + 1 = k then
          { nWorkersReported := 0,
            objectBuffer := writeSlice st.objectBuffer m.offset m.vectorPart }
        else
          { nWorkersReported := st.nWorkersReported + 1,
            objectBuffer := writeSlice st.objectBuffer m.offset m.vectorPart } := by
      unfold handleGatherVector
      rw [if_neg (by omega : ¬st.nWorkersReported = 0)]
    by_cases hk : st.nWorkersReported + 1 = k
    · have hms : ms = [] := List.length_eq_zero.mp (by omega)
      subst hms
      rw [hstep, if_pos hk]
      rfl
    · rw [hstep, if_neg hk]
      exact ih _ (by show 1 ≤ st.nWorkersReported + 1; omega)
        (by show st.nWorkersReported + 1 + ms.length ≤ k; omega)

/-- Whole-round buffer characterization: all writes applied to a fresh
zero-buffer sized by the first report's `len`. -/
lemma processGatherVector_buffer (k : ℕ) (m0 : GatherMsg) (ms : List GatherMsg)
    (h : 1 + ms.length ≤ k) :
    (processGatherVector k (m0 :: ms)).objectBuffer =
      applyWrites (List.replicate m0.len 0) (m0 :: ms) := by
  rw [processGatherVector, List.foldl_cons, applyWrites_cons]
  have hstep : handleGatherVector k { nWorkersReported := 0, objectBuffer := [] } m0 =
      if 0 + 1 = k then
        { nWorkersReported := 0,
          objectBuffer := writeSlice (List.replicate m0.len 0) m0.offset m0.vectorPart }
      else
        { nWorkersReported := 0 + 1,
          objectBuffer := writeSlice (List.replicate m0.len 0) m0.offset m0.vectorPart } := by
    unfold handleGatherVector
    rfl
  by_cases hk : 0 + 1 = k
  · have hms : ms = [] := List.length_eq_zero.mp (by omega)
    subst hms
    rw [hstep, if_pos hk]
    rfl
  · rw [hstep, if_neg hk]
    exact processGather_go k ms _ (by show (1 : ℕ) ≤ 0 + 1; omega)
      (by show 0 + 1 + ms.length ≤ k; omega)

lemma workerGatherMsg_agrees (v : List ℚ) (k id : ℕ) (hk : 1 ≤ k) (hid : id < k) :
    (workerGatherMsg v k id).agrees v := by
  have hito : (loadBalance v.length k id).ito ≤ v.length := by
    have h1 : (loadBalance v.length k id).ito ≤ (loadBalance v.length k k).ifrom := by
      rw [loadBalance_ito_eq_ifrom_succ]
      exact loadBalance_ifrom_mono v.length k hid
    rw [loadBalance_ifrom_top v.length k hk] at h1
    exact h1
  have hfe : (loadBalance v.length k id).ifrom ≤ (loadBalance v.length k id).ito :=
    loadBalance_ifrom_le_ito v.length k id
  have hplen : (workerGatherMsg v k id).vectorPart.length =
      (loadBalance v.length k id).ito - (loadBalance v.length k id).ifrom := by
    rw [workerGatherMsg]
    simp only [List.length_take, List.length_drop]
    omega
  constructor
  · rw [hplen, workerGatherMsg]
    simp only
    omega
  · intro j hj
    rw [hplen] at hj
    rw [workerGatherMsg]
    simp only
    rw [List.getElem?_take_of_lt hj, List.getElem?_drop]

/-- C2: splitting a vector of length `n` over `k` workers (`n ≥ k ≥ 1`), with
each worker shipping the identity transform of its partition slice plus its
offset, and the Coordinator placing each arriving slice into the accumulator
at that offset, reassembles the original vector after all `k` reports, in any
arrival order (any permutation of the `k` gather messages). -/
theorem gatherVector_roundtrip (v : List ℚ) (k : ℕ) (hk : 1 ≤ k)
    (hn : k ≤ v.length) (msgs : List GatherMsg)
    (hperm : msgs.Perm ((List.range k).map (workerGatherMsg v k))) :
    (processGatherVector k msgs).objectBuffer = v := by
  have hlen : msgs.length = k := by
    rw [hperm.length_eq, List.length_map, List.length_range]
  have hmem : ∀ m ∈ msgs, ∃ id, id < k ∧ m = workerGatherMsg v k id := by
    intro m hm
    have := hperm.mem_iff.mp hm
    obtain ⟨id, hid, heq⟩ := List.mem_map.mp this
    exact ⟨id, List.mem_range.mp hid, heq.symm⟩
  obtain ⟨m0, ms, rfl⟩ : ∃ m0 ms, msgs = m0 :: ms := by
    cases msgs with
    | nil => simp at hlen; omega
    | cons a l => exact ⟨a, l, rfl⟩
  have hm0len : m0.len = v.length := by
    obtain ⟨id, _, heq⟩ := hmem m0 (List.mem_cons_self _ _)
    rw [heq, workerGatherMsg]
  have hbuf := processGatherVector_buffer k m0 ms
    (by rw [List.length_cons] at hlen; omega)
  rw [hbuf, hm0len]
  have hag : ∀ m ∈ m0 :: ms, m.agrees v := by
    intro m hm
    obtain ⟨id, hid, heq⟩ := hmem m hm
    rw [heq]
    exact workerGatherMsg_agrees v k id hk hid
  apply List.ext_getElem?
  intro i
  by_cases hi : i < v.length
  · have hcov : ∃ m ∈ m0 :: ms, m.covers i := by
      obtain ⟨id, hid, h1, h2⟩ :=
        ((loadBalance_partition_correct v.length k (by omega) hk).2.2.2.2.2.1 i).mpr hi
      refine ⟨workerGatherMsg v k id, ?_, ?_⟩
      · exact hperm.mem_iff.mpr (List.mem_map.mpr ⟨id, List.mem_range.mpr hid, rfl⟩)
      · have := (workerGatherMsg_agrees v k id hk hid)
        have hplen : (workerGatherMsg v k id).vectorPart.length =
            (loadBalance v.length k id).ito - (loadBalance v.length k id).ifrom := by
          rw [workerGatherMsg]
          simp only [List.length_take, List.length_drop]
          have hito : (loadBalance v.length k id).ito ≤ v.length := by
            have hx : (loadBalance v.length k id).ito ≤ (loadBalance v.length k k).ifrom := by
              rw [loadBalance_ito_eq_ifrom_succ]
              exact loadBalance_ifrom_mono v.length k hid
            rw [loadBalance_ifrom_top v.length k hk] at hx
            exact hx
          omega
        constructor
        · exact h1
        · rw [hplen]
          have hfe := loadBalance_ifrom_le_ito v.length k id
          have : (workerGatherMsg v k id).offset = (loadBalance v.length k id).ifrom := rfl
          rw [this]
          omega
    exact applyWrites_getElem?_of_covered v (m0 :: ms) _ i
      (by rw [List.length_replicate]) hag hcov hi
  · rw [List.getElem?_eq_none (by rw [applyWrites_length, List.length_replicate]; omega),
      List.getElem?_eq_none (by omega)]

/-- Witness for C2: the vector `[1,2,3,4,5,6,7]` over 3 workers, with the
reports arriving in reversed order, reassembles exactly. -/
theorem gatherVector_roundtrip_witness :
    (processGatherVector 3
      (((List.range 3).map (workerGatherMsg [1, 2, 3, 4, 5, 6, 7] 3)).reverse)).objectBuffer
      = [1, 2, 3, 4, 5, 6, 7] :=
  gatherVector_roundtrip [1, 2, 3, 4, 5, 6, 7] 3 (by decide) (by decide) _
    (((List.range 3).map (workerGatherMsg [1, 2, 3, 4, 5, 6, 7] 3)).reverse_perm)

/-! ## Scalar reduction (`handleVectorSum` and `handleVectorProduct`)

Coordinator side:

    if (nWorkersReported == 0) { objectBuffer = data.tot; }
    else { objectBuffer += data.tot; }      // resp. `objectBuffer *= data.tot`
    nWorkersReported += 1;
    if (nWorkersReported == global.nWorkers) { ...; nWorkersReported = 0; }

The JS `objectBuffer` starts as the placeholder object; it is never read
before the first report overwrites it, so the initial value `0` below is
immaterial.
-/

structure ReduceState where
  nWorkersReported : ℕ
  objectBuffer : ℚ
  deriving Repr, DecidableEq

def handleVectorSum (nWorkers : ℕ) (st : ReduceState) (tot : ℚ) : ReduceState :=
  let buf := if st.nWorkersReported = 0 then tot else st.objectBuffer + tot
  if st.nWorkersReported + 1 = nWorkers then
    { nWorkersReported := 0, objectBuffer := buf }
  else
    { nWorkersReported := st.nWorkersReported + 1, objectBuffer := buf }

def handleVectorProduct (nWorkers : ℕ) (st : ReduceState) (tot : ℚ) : ReduceState :=
  let buf := if st.nWorkersReported = 0 then tot else st.objectBuffer * tot
  if st.nWorkersReported + 1 = nWorkers then
    { nWorkersReported := 0, objectBuffer := buf }
  else
    { nWorkersReported := st.nWorkersReported + 1, objectBuffer := buf }

def processVectorSum (nWorkers : ℕ) (tots : List ℚ) : ReduceState :=
  tots.foldl (handleVectorSum nWorkers) { nWorkersReported := 0, objectBuffer := 0 }

def processVectorProduct (nWorkers : ℕ) (tots : List ℚ) : ReduceState :=
  tots.foldl (handleVectorProduct nWorkers) { nWorkersReported := 0, objectBuffer := 0 }

lemma processVectorSum_go (k : ℕ) (tots : List ℚ) :
    ∀ (st : ReduceState), 1 ≤ st.nWorkersReported → st.nWorkersReported + tots.length ≤ k →
    (tots.foldl (handleVectorSum k) st).objectBuffer =
      tots.foldl (· + ·) st.objectBuffer := by
  induction tots with
  | nil => intro st _ _; rfl
  | cons t ts ih =>
    intro st h1 h2
    rw [List.foldl_cons, List.foldl_cons]
    rw [List.length_cons] at h2
    have hstep : handleVectorSum k st t =
        if st.nWorkersReported + 1 = k then
          { nWorkersReported := 0, objectBuffer := st.objectBuffer + t }
        else
          { nWorkersReported := st.nWorkersReported + 1,
            objectBuffer := st.objectBuffer + t } := by
      unfold handleVectorSum
      rw [if_neg (by omega : ¬st.nWorkersReported = 0)]
    by_cases hk : st.nWorkersReported + 1 = k
    · have hts : ts = [] := List.length_eq_zero.mp (by omega)
      subst hts
      rw [hstep, if_pos hk]
      rfl
    · rw [hstep, if_neg hk]
      exact ih _ (by show 1 ≤ st.nWorkersReported + 1; omega)
        (by show st.nWorkersReported + 1 + ts.length ≤ k; omega)

lemma processVectorProduct_go (k : ℕ) (tots : List ℚ) :
    ∀ (st : ReduceState), 1 ≤ st.nWorkersReported → st.nWorkersReported + tots.length ≤ k →
    (tots.foldl (handleVectorProduct k) st).objectBuffer =
      tots.foldl (· * ·) st.objectBuffer := by
  induction tots with
  | nil => intro st _ _; rfl
  | cons t ts ih =>
    intro st h1 h2
    rw [List.foldl_cons, List.foldl_cons]
    rw [List.length_cons] at h2
    have hstep : handleVectorProduct k st t =
        if st.nWorkersReported + 1 = k then
          { nWorkersReported := 0, objectBuffer := st.objectBuffer * t }
        else
          { nWorkersReported := st.nWorkersReported + 1,
            objectBuffer := st.objectBuffer * t } := by
      unfold handleVectorProduct
      rw [if_neg (by omega : ¬st.nWorkersReported = 0)]
    by_cases hk : st.nWorkersReported + 1 = k
    · have hts : ts = [] := List.length_eq_zero.mp (by omega)
      subst hts
      rw [hstep, if_pos hk]
      rfl
    · rw [hstep, if_neg hk]
      exact ih _ (by show 1 ≤ st.nWorkersReported + 1; omega)
        (by show st.nWorkersReported + 1 + ts.length ≤ k; omega)

lemma processVectorSum_buffer (k : ℕ) (t : ℚ) (ts : List ℚ) (h : 1 + ts.length ≤ k) :
    (processVectorSum k (t :: ts)).objectBuffer = (t :: ts).foldl (· + ·) 0 := by
  rw [processVectorSum, List.foldl_cons, List.foldl_cons]
  have hstep : handleVectorSum k { nWorkersReported := 0, objectBuffer := 0 } t =
      if 0 + 1 = k then { nWorkersReported := 0, objectBuffer := t }
      else { nWorkersReported := 0 + 1, objectBuffer := t } := by
    unfold handleVectorSum
    rfl
  have hinit : (0 : ℚ) + t = t := by ring
  by_cases hk : 0 + 1 = k
  · have hts : ts = [] := List.length_eq_zero.mp (by omega)
    subst hts
    rw [hstep, if_pos hk]
    simpa using hinit.symm
  · rw [hstep, if_neg hk, hinit]
    exact processVectorSum_go k ts _ (by show (1 : ℕ) ≤ 0 + 1; omega)
      (by show 0 + 1 + ts.length ≤ k; omega)

lemma processVectorProduct_buffer (k : ℕ) (t : ℚ) (ts : List ℚ) (h : 1 + ts.length ≤ k) :
    (processVectorProduct k (t :: ts)).objectBuffer = (t :: ts).foldl (· * ·) 1 := by
  rw [processVectorProduct, List.foldl_cons, List.foldl_cons]
  have hstep : handleVectorProduct k { nWorkersReported := 0, objectBuffer := 0 } t =
      if 0 + 1 = k then { nWorkersReported := 0, objectBuffer := t }
      else { nWorkersReported := 0 + 1, objectBuffer := t } := by
    unfold handleVectorProduct
    rfl
  have hinit : (1 : ℚ) * t = t := by ring
  by_cases hk : 0 + 1 = k
  · have hts : ts = [] := List.length_eq_zero.mp (by omega)
    subst hts
    rw [hstep, if_pos hk]
    simpa using hinit.symm
  · rw [hstep, if_neg hk, hinit]
    exact processVectorProduct_go k ts _ (by show (1 : ℕ) ≤ 0 + 1; omega)
      (by show 0 + 1 + ts.length ≤ k; omega)

/-- C3: the Coordinator's reduction (first arriving partial initializes the
accumulator, each later one is combined with `+` for sum, `×` for product)
yields, after all `k` reports in any permuted arrival order, the same value as
the serial left-to-right sum (resp. product) of the partials. -/
theorem reduce_order_invariant (k : ℕ) (hk : 1 ≤ k) (tots tots' : List ℚ)
    (hlen : tots.length = k) (hperm : tots'.Perm tots) :
    (processVectorSum k tots').objectBuffer = tots.foldl (· + ·) 0 ∧
    (processVectorProduct k tots').objectBuffer = tots.foldl (· * ·) 1 := by
  have hlen' : tots'.length = k := by rw [hperm.length_eq, hlen]
  obtain ⟨t, ts, rfl⟩ : ∃ t ts, tots' = t :: ts := by
    cases tots' with
    | nil => simp at hlen'; omega
    | cons a l => exact ⟨a, l, rfl⟩
  rw [List.length_cons] at hlen'
  constructor
  · rw [processVectorSum_buffer k t ts (by omega)]
    exact hperm.foldl_eq' (fun x _ y _ z => by ring) 0
  · rw [processVectorProduct_buffer k t ts (by omega)]
    exact hperm.foldl_eq' (fun x _ y _ z => by ring) 1

/-- Witness for C3: partials `[1, 2, 3]` arriving as `[3, 1, 2]` reduce to the
serial sum `6` and the serial product `6`. -/
theorem reduce_order_invariant_witness :
    (processVectorSum 3 [3, 1, 2]).objectBuffer = [(1 : ℚ), 2, 3].foldl (· + ·) 0 ∧
    (processVectorProduct 3 [3, 1, 2]).objectBuffer = [(1 : ℚ), 2, 3].foldl (· * ·) 1 :=
  reduce_order_invariant 3 (by decide) [1, 2, 3] [3, 1, 2] (by decide) (by decide)

/-! ## Barrier counter discipline

The shared skeleton of the Coordinator's barrier handlers
(`handleWorkerReady`, `handleSendData`, `handleGatherVector`, ...):

    nWorkersReported += 1;
    if (nWorkersReported == global.nWorkers) {
        ...close action (emit / rebroadcast)...
        nWorkersReported = 0;
    }

`nWorkersReported` is declared as `var nWorkersReported = 0;`, so a round
starts from counter `0`.
-/

/-- One report: increment the counter; on reaching `nWorkers`, fire the close
action (second component `true`) and reset the counter to `0`. -/
def barrierStep (nWorkers count : ℕ) : ℕ × Bool :=
  if count + 1 = nWorkers then (0, true) else (count + 1, false)

/-- Counter and cumulative number of close-action firings after `reports`
reports of a round, starting from the idle counter `0`. -/
def barrierRun (nWorkers reports : ℕ) : ℕ × ℕ :=
  (List.range reports).foldl
    (fun st _ =>
      let s := barrierStep nWorkers st.1
      (s.1, st.2 + if s.2 then 1 else 0))
    (0, 0)

lemma barrierRun_succ (N j : ℕ) :
    barrierRun N (j + 1) =
      ((barrierStep N (barrierRun N j).1).1,
        (barrierRun N j).2 + if (barrierStep N (barrierRun N j).1).2 then 1 else 0) := by
  rw [barrierRun, List.range_succ, List.foldl_append]
  rfl

/-- C4: in a round in which exactly `N = workerCount` reports arrive under one
tag, the close action fires exactly once — on the `N`-th report and on no
earlier one — the counter is `0` before the first report, it equals the number
of reports seen at every earlier point (so no close action has fired yet), and
it is reset to `0` the moment the close action fires. -/
theorem barrier_fires_exactly_once (N : ℕ) (hN : 1 ≤ N) :
    barrierRun N 0 = (0, 0) ∧
    (∀ j, j < N → barrierRun N j = (j, 0)) ∧
    barrierRun N N = (0, 1) := by
  have hpartial : ∀ j, j < N → barrierRun N j = (j, 0) := by
    intro j
    induction j with
    | zero => intro _; rfl
    | succ j ih =>
      intro hj
      rw [barrierRun_succ, ih (by omega)]
      have hne : ¬j + 1 = N := by omega
      rw [barrierStep, if_neg hne]
      rfl
  refine ⟨rfl, hpartial, ?_⟩
  obtain ⟨j, rfl⟩ : ∃ j, N = j + 1 := ⟨N - 1, by omega⟩
  rw [barrierRun_succ, hpartial j (by omega)]
  rw [barrierStep, if_pos rfl]
  rfl

/-- Witness for C4: with 3 workers, the counter goes 0, 1, 2 with no firing,
and the third report fires the close action once and resets the counter. -/
theorem barrier_fires_exactly_once_witness :
    barrierRun 3 0 = (0, 0) ∧ barrierRun 3 1 = (1, 0) ∧
    barrierRun 3 2 = (2, 0) ∧ barrierRun 3 3 = (0, 1) :=
  ⟨(barrier_fires_exactly_once 3 (by decide)).1,
    (barrier_fires_exactly_once 3 (by decide)).2.1 1 (by decide),
    (barrier_fires_exactly_once 3 (by decide)).2.1 2 (by decide),
    (barrier_fires_exactly_once 3 (by decide)).2.2⟩

/-! ## Vectors, precondition checks, and `MW.Vector.prototype.wkPlus`

Nullable JavaScript arguments are embedded as `Option` (with `none` for
`null`/`undefined`); the `MW.util.check*` helpers become `Except`-valued
functions whose error strings are the thrown messages.  A worker call that
completes returns the gather message it posts, so `Except.error` means the
call aborted before any message was sent.
-/

structure Vector where
  array : List ℚ
  deriving Repr, DecidableEq

/-- `this.length` — kept in sync with `this.array.length` by the `Vector`
constructor and `setVector`. -/
def Vector.length (v : Vector) : ℕ := v.array.length

/-- `MW.util.nullOrUndefined`. -/
def nullOrUndefined (x : Option α) : Bool := x.isNone

/-- `MW.util.checkNullOrUndefined`. -/
def checkNullOrUndefined (x : Option α) : Except String Unit :=
  if nullOrUndefined x then Except.error "Undefined or null variable." else Except.ok ()

/-- `MW.util.checkVectors`: checks `v` (null/type), then `w`, then equal
lengths.  A present `Vector` value passes the `instanceof` test. -/
def checkVectors : Option Vector → Option Vector → Except String Unit
  | none, _ => Except.error "Undefined or null variable."
  | some _, none => Except.error "Undefined or null variable."
  | some v, some w =>
    if v.length ≠ w.length then Except.error "Vectors have unequal lengths."
    else Except.ok ()

/-- `MW.Vector.prototype.wkPlus` (plain-loop branch; the checks precede the
compute-and-gather): on success, returns the `_gatherVector` message that
`MW.MathWorker.gatherVector(x, this.length, lb.ifrom, tag, rebroadcast)`
posts.  The final `none` branch is unreachable: `checkVectors` has already
thrown for a missing operand. -/
def wkPlus (self : Vector) (w : Option Vector) (tag : Option String) (k id : ℕ) :
    Except String GatherMsg :=
  match checkVectors (some self) w with
  | Except.error e => Except.error e
  | Except.ok _ =>
    match checkNullOrUndefined tag with
    | Except.error e => Except.error e
    | Except.ok _ =>
      match w with
      | none => Except.error "Undefined or null variable."
      | some w' =>
        let lb := loadBalance self.length k id
        Except.ok
          { len := self.length, offset := lb.ifrom,
            vectorPart := (List.range' lb.ifrom (lb.ito - lb.ifrom)).map
              (fun i => self.array.getD i 0 + w'.array.getD i 0) }

/-- C7: a partitioned two-vector worker operation (`wkPlus`) called with
operands of unequal lengths, or with a null/undefined operand or tag, aborts
with an error and posts no gather message (an `Except.error` result carries
no message; the checks run before the compute-and-post). -/
theorem wkPlus_precondition_error (self : Vector) (w : Option Vector)
    (tag : Option String) (k id : ℕ)
    (h : w = none ∨ tag = none ∨ ∀ w', w = some w' → w'.length ≠ self.length) :
    ∃ e, wkPlus self w tag k id = Except.error e := by
  rcases h with h | h | h
  · subst h
    exact ⟨_, rfl⟩
  · cases w with
    | none => exact ⟨_, rfl⟩
    | some w' =>
      subst h
      rw [wkPlus]
      by_cases hl : self.length ≠ w'.length
      · rw [checkVectors, if_pos hl]
        exact ⟨_, rfl⟩
      · rw [checkVectors, if_neg hl]
        exact ⟨_, rfl⟩
  · cases w with
    | none => exact ⟨_, rfl⟩
    | some w' =>
      have hl : self.length ≠ w'.length := fun he => h w' rfl he.symm
      rw [wkPlus, checkVectors, if_pos hl]
      exact ⟨_, rfl⟩

/-- Witness for C7: adding a length-2 vector to a length-1 vector aborts with
an error before any message is posted. -/
theorem wkPlus_precondition_error_witness :
    ∃ e, wkPlus { array := [1, 2] } (some { array := [3] }) (some "t") 1 0 =
      Except.error e :=
  wkPlus_precondition_error { array := [1, 2] } (some { array := [3] }) (some "t") 1 0
    (Or.inr (Or.inr (fun w' hw => by cases hw; decide)))

/-! ## Matrices (`MW.Matrix`) and the fused batch operations -/

structure Matrix where
  nrows : ℕ
  ncols : ℕ
  array : List (List ℚ)
  deriving Repr, DecidableEq

/-- Entry access `this.array[i][j]`. -/
def Matrix.entry (A : Matrix) (i j : ℕ) : ℚ := (A.array.getD i []).getD j 0

/-- `MW.Matrix.prototype.isSquare`: `this.nrows == this.ncols`. -/
def Matrix.isSquare (A : Matrix) : Bool := A.nrows == A.ncols

/-- `MW.Matrix.prototype.transpose`: fresh `ncols × nrows` matrix with
`B.array[j][i] = this.array[i][j]`. -/
def Matrix.transpose (A : Matrix) : Matrix :=
  { nrows := A.ncols, ncols := A.nrows,
    array := (List.range A.ncols).map (fun j =>
      (List.range A.nrows).map (fun i => A.entry i j)) }

/-- `MW.Matrix.prototype.transposeInPlace`: throws unless square; on a square
matrix the swap loop (`tmp = a[i][j]; a[i][j] = a[j][i]; a[j][i] = tmp` for
`j > i`) leaves entry `(i, j)` holding the old entry `(j, i)`, i.e. exactly
the transposed matrix of the same square shape. -/
def Matrix.transposeInPlace (A : Matrix) : Except String Matrix :=
  if A.isSquare then
    Except.ok
      { nrows := A.nrows, ncols := A.ncols,
        array := (List.range A.nrows).map (fun i =>
          (List.range A.ncols).map (fun j => A.entry j i)) }
  else Except.error "In place transpose only available for square matrices."

/-- `MW.util.checkMatrixMatrix` (shape part; present matrices pass the
null/type tests). -/
def checkMatrixMatrix (A B : Matrix) : Except String Unit :=
  if A.ncols ≠ B.nrows then
    Except.error "Matrices do not have compatible dimensions for matrix-matrix multiplication."
  else Except.ok ()

/-- The inner accumulation `for (k = 0; k < A.ncols; ++k)
`tot += A.array[i][k] * Bt.array[j][k]`. -/
def rowRowDot (A : Matrix) (i : ℕ) (Bt : Matrix) (j n : ℕ) : ℚ :=
  ((List.range n).map (fun t => A.entry i t * Bt.entry j t)).sum

/-- `MW.BatchOperation.wkMatrixMatrixPlus(alpha, A, B, tag, rebroadcast, beta,
C)`; the result pairs the rows `D` shipped via `gatherMatrixRows` with the
caller-observable final state of `B` (which `transposeInPlace` mutates).  The
restore step embeds the source text faithfully:

    // restore B
    if (B.isSquare) { B.transposeInPlace(); }

`B.isSquare` (no parentheses) references the method *function object*, which
is always truthy, so `transposeInPlace` runs — and throws — even when `B` is
not square. -/
def wkMatrixMatrixPlus (alpha : ℚ) (A B : Matrix) (tag : Option String) (k id : ℕ)
    (betaC : Option (ℚ × Matrix)) : Except String (List (List ℚ) × Matrix) := do
  let _ ← checkMatrixMatrix A B
  let _ ← checkNullOrUndefined tag
  -- var Bt = B.isSquare() ? B.transposeInPlace() : B.transpose();
  -- `transposeInPlace` mutates B and returns `this`, so for square B the
  -- current state of B aliases Bt; otherwise B is untouched.
  let p ←
    if B.isSquare then do
      let t ← B.transposeInPlace
      pure (t, t)
    else
      pure (B.transpose, B)
  let Bt := p.1
  let B1 := p.2
  let lb := loadBalance A.nrows k id
  let D ←
    match betaC with
    | some (beta, C) =>
      if A.nrows = C.nrows ∧ B1.ncols = C.ncols then
        pure ((List.range' lb.ifrom (lb.ito - lb.ifrom)).map (fun i =>
          (List.range B1.ncols).map (fun j =>
            alpha * rowRowDot A i Bt j A.ncols + beta * C.entry i j)))
      else
        throw "Matrix dimensions not compatible for addition."
    | none =>
      pure ((List.range' lb.ifrom (lb.ito - lb.ifrom)).map (fun i =>
        (List.range B1.ncols).map (fun j => alpha * rowRowDot A i Bt j A.ncols)))
  -- if (B.isSquare) { B.transposeInPlace(); }   // always-truthy property test
  let B2 ← B1.transposeInPlace
  pure (D, B2)

/-- C5 (code bug): the claim says that for every shape-compatible `A`, `B` the
call returns with `B` observably unchanged.  The restore step `if
(B.isSquare)` tests the function object instead of calling it, so for a
*non-square* `B` the call does not return at all: it throws from
`transposeInPlace` (first conjunct, `A` 1×2 and `B` 2×1).  For a square `B`
the double in-place transpose does restore `B` (second conjunct). -/
theorem wkMatrixMatrixPlus_restore_throws_nonsquare :
    wkMatrixMatrixPlus 1
      { nrows := 1, ncols := 2, array := [[1, 2]] }
      { nrows := 2, ncols := 1, array := [[3], [4]] }
      (some "t") 1 0 none
      = Except.error "In place transpose only available for square matrices." ∧
    ∃ D, wkMatrixMatrixPlus 1
      { nrows := 2, ncols := 2, array := [[1, 2], [3, 4]] }
      { nrows := 2, ncols := 2, array := [[5, 6], [7, 8]] }
      (some "t") 1 0 none
      = Except.ok (D, { nrows := 2, ncols := 2, array := [[5, 6], [7, 8]] }) :=
  ⟨rfl, ⟨_, rfl⟩⟩

/-! ## `MW.BatchOperation.wkMatrixVectorPlus`

JavaScript values that can be NaN are embedded as `Option ℚ` with `none` for
NaN; `jsMul`/`jsAdd` propagate it the way IEEE arithmetic propagates NaN
(and arithmetic on `undefined` produces NaN).
-/

def jsMul : Option ℚ → Option ℚ → Option ℚ
  | some a, some b => some (a * b)
  | _, _ => none

def jsAdd : Option ℚ → Option ℚ → Option ℚ
  | some a, some b => some (a + b)
  | _, _ => none

/-- A gather message whose payload entries may be NaN. -/
structure GatherMsgNaN where
  len : ℕ
  offset : ℕ
  vectorPart : List (Option ℚ)
  deriving Repr, DecidableEq

/-- `MW.util.checkMatrixVector` (shape part). -/
def checkMatrixVector (A : Matrix) (x : Vector) : Except String Unit :=
  if x.length ≠ A.ncols then
    Except.error "Vector length and number Matrix columns are unequal."
  else Except.ok ()

/-- `MW.BatchOperation.wkMatrixVectorPlus(alpha, A, x, tag, rebroadcast, beta,
y)`, embedded with the source's actual inner loop:

    for (var j = 0; j < this.ncols; ++j) { tot += A.array[i][j] * v.array[j]; }

`this` is the plain object `MW.BatchOperation`, so `this.ncols` is
`undefined`, the comparison `j < undefined` is false, the body (which would
read the undeclared identifier `v`) never runs, and `tot` stays `0.0`.  In
the `beta`-branch, `y` is a `Vector` object, so the indexed property `y[i]`
is `undefined` and `beta * y[i]` is NaN. -/
def wkMatrixVectorPlus (alpha : ℚ) (A : Matrix) (x : Vector) (tag : Option String)
    (k id : ℕ) (betaY : Option (ℚ × Vector)) : Except String GatherMsgNaN := do
  let _ ← checkMatrixVector A x
  let _ ← checkNullOrUndefined tag
  let lb := loadBalance A.nrows k id
  match betaY with
  | some (beta, y) =>
    let _ ← checkVectors (some x) (some y)
    pure
      { len := x.length, offset := lb.ifrom,
        vectorPart := (List.range' lb.ifrom (lb.ito - lb.ifrom)).map
          (fun _i => jsAdd (jsMul (some alpha) (some 0)) (jsMul (some beta) none)) }
  | none =>
    pure
      { len := x.length, offset := lb.ifrom,
        vectorPart := (List.range' lb.ifrom (lb.ito - lb.ifrom)).map
          (fun _i => jsMul (some alpha) (some 0)) }

/-- The slice the claim says `wkMatrixVectorPlus` ships: for each row `i` of
the worker's partition of `A`'s rows, position `i - ifrom` holds
`alpha * Σ_j A[i][j]·x[j] + beta * y[i]`. -/
def claimedMatrixVectorPlusSlice (alpha : ℚ) (A : Matrix) (x : Vector) (beta : ℚ)
    (y : Vector) (k id : ℕ) : List ℚ :=
  let lb := loadBalance A.nrows k id
  (List.range' lb.ifrom (lb.ito - lb.ifrom)).map (fun i =>
    alpha * ((List.range A.ncols).map (fun j => A.entry i j * x.array.getD j 0)).sum
      + beta * y.array.getD i 0)

/-- C6 (code bug): with `alpha = 1`, `A = [[1]]`, `x = [1]`, `beta = 1`,
`y = [1]`, one worker, the claim says the shipped slice is `[2]`
(`1·(1·1) + 1·1`); the code ships `[NaN]`, because the inner loop bound
`this.ncols` is `undefined` (so the accumulated dot product is `0.0`) and
`beta * y[i]` multiplies by the `undefined` property `y[i]`. -/
theorem wkMatrixVectorPlus_undefined_vars_bug :
    wkMatrixVectorPlus 1 { nrows := 1, ncols := 1, array := [[1]] } { array := [1] }
      (some "t") 1 0 (some (1, { array := [1] }))
      = Except.ok { len := 1, offset := 0, vectorPart := [none] } ∧
    claimedMatrixVectorPlusSlice 1 { nrows := 1, ncols := 1, array := [[1]] }
      { array := [1] } 1 { array := [1] } 1 0 = [2] := by
  constructor
  · rfl
  · have hr : List.range 1 = [0] := rfl
    norm_num [claimedMatrixVectorPlusSlice, loadBalance, Matrix.entry, hr]

/-! ## Trigger registration (`MW.MathWorker.on`, `EventEmitter.on`,
`handleTrigger`)

Both registries assign a fresh singleton list:

    this.on = function(tag, callback) { ... triggers[tag] = [callback]; };
    this.on = function(name, callback) { ... events[name] = [callback]; };

and dispatch runs `forEach` over the registered list.  The registry object is
embedded as a function from tag to the optional registered list.
-/

def on' {H : Type} (triggers : String → Option (List H)) (tag : String) (callback : H) :
    String → Option (List H) :=
  fun t => if t = tag then some [callback] else triggers t

/-- `handleTrigger`: if a (truthy) list is registered for the tag, each of its
callbacks is invoked in order; otherwise only `console.error` runs.  Returns
the list of callbacks invoked, in invocation order. -/
def handleTrigger {H : Type} (triggers : String → Option (List H)) (tag : String) :
    List H :=
  match triggers tag with
  | some fns => fns
  | none => []

/-- C8: registering `h1` then `h2` under the same tag leaves exactly one
active handler: the registry maps the tag to the singleton `[h2]`, so a
subsequent trigger for that tag invokes only `h2`, exactly once. -/
theorem on_replaces_previous_handler {H : Type} (triggers : String → Option (List H))
    (tag : String) (h1 h2 : H) :
    handleTrigger (on' (on' triggers tag h1) tag h2) tag = [h2] ∧
    on' (on' triggers tag h1) tag h2 tag = some [h2] := by
  constructor <;> simp [on', handleTrigger]

/-! ## Pool construction (`global.createPool`, `MW.util.checkWebWorkerSupport`) -/

/-- `MW.util.checkWebWorkerSupport`: throws when `typeof(Worker)` is
`"undefined"`.  `workerDefined` embeds whether the runtime provides the
`Worker` capability. -/
def checkWebWorkerSupport (workerDefined : Bool) : Except String Unit :=
  if workerDefined = false then
    Except.error "Web Worker support not available for MathWorkers."
  else Except.ok ()

/-- `global.createPool(nWorkersInput, workerScriptName)`: checks Web Worker
support first; only then does the spawn loop run.  The returned list holds
the spawned worker ids (the pool); an error result means the check threw
before the loop, so no worker was created. -/
def createPool (workerDefined : Bool) (nWorkersInput : ℕ) : Except String (List ℕ) :=
  match checkWebWorkerSupport workerDefined with
  | Except.error e => Except.error e
  | Except.ok _ => Except.ok (List.range nWorkersInput)

/-- C9: pool construction raises at construction time, before any worker is
created, exactly when the runtime provides no worker-context capability; with
the capability available it does not raise. -/
theorem createPool_checks_worker_support (b : Bool) (n : ℕ) :
    (b = false → createPool b n =
      Except.error "Web Worker support not available for MathWorkers.") ∧
    (b = true → createPool b n = Except.ok (List.range n)) := by
  constructor <;> intro h <;> subst h <;> rfl

/-- Witness for C9: a 4-worker pool with and without the capability. -/
theorem createPool_checks_worker_support_witness :
    createPool false 4 =
      Except.error "Web Worker support not available for MathWorkers." ∧
    createPool true 4 = Except.ok (List.range 4) :=
  ⟨(createPool_checks_worker_support false 4).1 rfl,
    (createPool_checks_worker_support true 4).2 rfl⟩

/-! ## `MW.Vector.prototype.wkSum` (plain and unrolled branches)

The partial total `tot` that `wkSum` computes before calling
`reduceVectorSum`.  The unrolled branch of the source is

    var ni3 = lb.ito - 3;
    for (i = lb.ifrom; i < ni3; ++i) {
        tot += this.array[i] + this.array[i+1] + this.array[i+2] + this.array[i+3];
    }
    for (; i < lb.ito; ++i) { tot += this.array[i]; }

note `++i`, advancing by one — whereas the unrolled loop of
`MW.Vector.prototype.sum` advances `i += 4`.  The ℕ-truncated `lb.ito - 3`
matches the JS value: when `lb.ito < 3` the JS bound is negative and the
first loop runs zero times, exactly as with the truncated bound `0`.  After
the first loop `i = max lb.ifrom ni3`, where the second loop picks up.
-/

def wkSumTot (unrollLoops : Bool) (v : Vector) (k id : ℕ) : ℚ :=
  let lb := loadBalance v.length k id
  if unrollLoops then
    ((List.range' lb.ifrom (lb.ito - 3 - lb.ifrom)).map (fun i =>
      v.array.getD i 0 + v.array.getD (i + 1) 0 + v.array.getD (i + 2) 0
        + v.array.getD (i + 3) 0)).sum +
    ((List.range' (max lb.ifrom (lb.ito - 3))
        (lb.ito - max lb.ifrom (lb.ito - 3))).map (fun i => v.array.getD i 0)).sum
  else
    ((List.range' lb.ifrom (lb.ito - lb.ifrom)).map (fun i => v.array.getD i 0)).sum

/-- C10 (code bug): the claim says the partial total equals the serial sum
over the worker's range for either setting of `unrollLoops`.  On
`v = [1,1,1,1,1]` with one worker (range `[0,5)`) the plain branch reports
the serial sum `5`, but the unrolled branch reports `11`: its first loop
advances `i` by 1 instead of 4 (unlike `Vector.prototype.sum`), re-adding
overlapping four-element windows. -/
theorem wkSum_unrolled_mismatch :
    wkSumTot false { array := [1, 1, 1, 1, 1] } 1 0 = 5 ∧
    wkSumTot true { array := [1, 1, 1, 1, 1] } 1 0 = 11 ∧
    wkSumTot true { array := [1, 1, 1, 1, 1] } 1 0 ≠
      wkSumTot false { array := [1, 1, 1, 1, 1] } 1 0 := by
  have h1 : List.range' 0 5 = [0, 1, 2, 3, 4] := rfl
  have h2 : List.range' 0 2 = [0, 1] := rfl
  have h3 : List.range' 2 3 = [2, 3, 4] := rfl
  refine ⟨?_, ?_, ?_⟩ <;>
    norm_num [wkSumTot, loadBalance, Vector.length, h1, h2, h3]

end MW
